import Mathlib

/-!
Verification of the estimate-summary tool (`stima.py`).

The development shallowly embeds the program's core pipeline:
phase extraction from markdown lines, aggregate estimate calculation,
summary rendering, and in-place document updating.  Text is modelled as
`List Char`; Python `float` arithmetic is modelled exactly over `ℚ` with
Python's round-half-to-even `round`.
-/

namespace Stima

/-- Python's whitespace class for `str.strip` / `\s` (ASCII fragment). -/
def isPySpace (c : Char) : Bool :=
  c = ' ' || c = '\t' || c = '\n' || c = '\r' || c = '\x0b' || c = '\x0c'

/-- ASCII decimal digit, Python's `\d` on the documents in scope. -/
def isDigitCh (c : Char) : Bool :=
  '0' ≤ c && c ≤ '9'

/-- `str.lstrip()`: drop leading whitespace. -/
def lstrip (s : List Char) : List Char := s.dropWhile isPySpace

/-- `str.rstrip()`: drop trailing whitespace. -/
def rstrip (s : List Char) : List Char := ((s.reverse).dropWhile isPySpace).reverse

/-- `str.strip()`: drop whitespace at both ends. -/
def strip (s : List Char) : List Char := rstrip (lstrip s)

/-- Python's built-in `round` (round half to even), on exact rationals. -/
def pyRound (q : ℚ) : ℤ :=
  let f := ⌊q⌋
  if q - f < 1/2 then f
  else if 1/2 < q - f then f + 1
  else if f % 2 = 0 then f else f + 1

/-- `round_to_multiple(number, multiple)` from `stima.py`:
`multiple * round(number / multiple)`. -/
def round_to_multiple (number : ℚ) (multiple : ℤ) : ℤ :=
  multiple * pyRound (number / multiple)

/-- A phase record extracted from the document. -/
structure Phase where
  name : List Char
  min_hours : ℕ
  max_hours : ℕ
deriving DecidableEq

/-- `calculate_estimates` from `stima.py`: totals, prices rounded to a
multiple of 5, and timeline weeks. -/
def calculate_estimates (phases : List Phase) (min_hourly_rate max_hourly_rate
    min_weekly_hours max_weekly_hours : ℚ) : ℕ × ℕ × ℤ × ℤ × ℤ × ℤ :=
  let total_hours_min : ℕ := phases.foldl (fun acc ph => acc + ph.min_hours) 0
  let total_hours_max : ℕ := phases.foldl (fun acc ph => acc + ph.max_hours) 0
  let min_price := round_to_multiple ((total_hours_min : ℚ) * min_hourly_rate) 5
  let max_price := round_to_multiple ((total_hours_max : ℚ) * max_hourly_rate) 5
  let weeks_min := pyRound ((total_hours_min : ℚ) / max_weekly_hours)
  let weeks_max := pyRound ((total_hours_max : ℚ) / min_weekly_hours)
  (total_hours_min, total_hours_max, min_price, max_price, weeks_min, weeks_max)

/-! ## Phase extractor (`parse_markdown_file`) -/

/-- The level-3 heading marker. -/
def hMark : List Char := ("### ").toList

/-- Reserved heading 1 as tested by the source (`startswith`). -/
def resv1 : List Char := ("### Riepilogo stime").toList

/-- Reserved heading 2 as tested by the source (`startswith`). -/
def resv2 : List Char := ("### Stima economica").toList

/-- Reserved heading 3 as tested by the source (`startswith`). -/
def resv3 : List Char := ("### Timeline stimata").toList

/-- The estimate label `**Stima ore**:`. -/
def label : List Char := ("**Stima ore**:").toList

/-- The literal `ore` required by both hour regexes. -/
def oreL : List Char := ("ore").toList

/-- The guard of the cursor-setting branch of the extractor: the stripped
line starts with `### ` and with none of the three reserved headings. -/
def isHeading (line : List Char) : Bool :=
  hMark.isPrefixOf (strip line)
    && !(resv1.isPrefixOf (strip line))
    && !(resv2.isPrefixOf (strip line))
    && !(resv3.isPrefixOf (strip line))

/-- Heading text with the `### ` marker stripped: `line.strip()[4:]`. -/
def headingName (line : List Char) : List Char := (strip line).drop 4

/-- Digit run to a number, as Python `int()` on a digit string. -/
def digitsToNat (l : List Char) : ℕ :=
  l.foldl (fun n c => 10 * n + (c.toNat - 48)) 0

/-- Attempt to match the range regex `(\d+)[-–](\d+)\s+ore` anchored at the
start of `s`.  For this pattern greedy matching without backtracking is
exact, since each greedy run is followed by a character outside its class. -/
def matchRangeAt (s : List Char) : Option (ℕ × ℕ) :=
  if s.takeWhile isDigitCh = [] then none else
  match s.dropWhile isDigitCh with
  | [] => none
  | c :: r₂ =>
    if c = '-' || c = '–' then
      if r₂.takeWhile isDigitCh = [] then none else
      if ((r₂.dropWhile isDigitCh).takeWhile isPySpace) = [] then none else
      if oreL.isPrefixOf ((r₂.dropWhile isDigitCh).dropWhile isPySpace) then
        some (digitsToNat (s.takeWhile isDigitCh), digitsToNat (r₂.takeWhile isDigitCh))
      else none
    else none

/-- Attempt to match the single-value regex `(\d+)\s+ore` at the start. -/
def matchSingleAt (s : List Char) : Option ℕ :=
  if s.takeWhile isDigitCh = [] then none else
  if ((s.dropWhile isDigitCh).takeWhile isPySpace) = [] then none else
  if oreL.isPrefixOf ((s.dropWhile isDigitCh).dropWhile isPySpace) then
    some (digitsToNat (s.takeWhile isDigitCh))
  else none

/-- `re.search` for the range pattern: leftmost match. -/
def searchRange : List Char → Option (ℕ × ℕ)
  | [] => none
  | c :: s =>
    match matchRangeAt (c :: s) with
    | some r => some r
    | none => searchRange s

/-- `re.search` for the single-value pattern: leftmost match. -/
def searchSingle : List Char → Option ℕ
  | [] => none
  | c :: s =>
    match matchSingleAt (c :: s) with
    | some r => some r
    | none => searchSingle s

/-- One step of the extractor's scan over a line: given the current-phase
cursor, return the new cursor and the (zero or one) phases emitted. -/
def lineStep (cur : Option (List Char)) (line : List Char) :
    Option (List Char) × List Phase :=
  if isHeading line then (some (headingName line), [])
  else
    match cur with
    | none => (none, [])
    | some name =>
      if label.isPrefixOf (strip line) then
        match searchRange line with
        | some (a, b) => (none, [⟨name, a, b⟩])
        | none =>
          match searchSingle line with
          | some v => (none, [⟨name, v, v⟩])
          | none => (some name, [])
      else (some name, [])

/-- The extractor's scan over the list of lines. -/
def parseLines : List (List Char) → Option (List Char) → List Phase
  | [], _ => []
  | line :: rest, cur =>
    match lineStep cur line with
    | (cur', ps) => ps ++ parseLines rest cur'

/-- `content.split("\n")`, keeping empty pieces. -/
def splitNl : List Char → List (List Char)
  | [] => [[]]
  | c :: rest =>
    match splitNl rest with
    | [] => [[c]]
    | l :: ls => if c = '\n' then [] :: l :: ls else (c :: l) :: ls

/-- `parse_markdown_file` from `stima.py`, on the file's text. -/
def parse_markdown_file (content : List Char) : List Phase :=
  parseLines (splitNl content) none

/-! ## Summary renderer (`generate_summary`) -/

/-- Character for a decimal digit value. -/
def digitChar (k : ℕ) : Char := Char.ofNat (48 + k % 10)

/-- Decimal digit characters of a natural number, most significant first;
`fuel` bounds the recursion depth (structural, so the kernel can reduce it). -/
def natDigitsGo (fuel : ℕ) (n : ℕ) (acc : List Char) : List Char :=
  match fuel with
  | 0 => acc
  | fuel + 1 =>
    if n < 10 then digitChar n :: acc
    else natDigitsGo fuel (n / 10) (digitChar (n % 10) :: acc)

/-- Decimal digit string of a natural number (`n + 1` fuel always suffices,
since the argument strictly decreases each step). -/
def natDigits (n : ℕ) : List Char := natDigitsGo (n + 1) n []

/-- Decimal rendering of an integer, as Python `str`/`format`. -/
def intDigits (z : ℤ) : List Char :=
  (if z < 0 then ['-'] else []) ++ natDigits z.natAbs

/-- Insert `sep` after every third character, working on a reversed list. -/
def group3Go (sep : Char) : List Char → List Char
  | a :: b :: c :: d :: rest => a :: b :: c :: sep :: group3Go sep (d :: rest)
  | l => l

/-- Python's `,` grouping of `format`: `sep` every three digits from the
right. -/
def group3 (sep : Char) (ds : List Char) : List Char :=
  (group3Go sep ds.reverse).reverse

/-- The `.replace(",", ".")` applied to the formatted price lines. -/
def commaDot (c : Char) : Char := if c = ',' then '.' else c

/-- The price text produced by `f"...{p:,.0f}..."` then `.replace(",", ".")`:
grouped decimal digits with the grouping glyph swapped to `.`. -/
def renderPrice (p : ℤ) : List Char :=
  (if p < 0 then ['-'] else []) ++ (group3 ',' (natDigits p.natAbs)).map commaDot

/-- `round((a + b) / 2)` on integers, as computed by `generate_summary` for
per-phase averages, final hours and final weeks. -/
def avgRound (a b : ℤ) : ℤ := pyRound (((a : ℚ) + (b : ℚ)) / 2)

/-- Join lines with `"\n"`, as `"\n".join(summary_lines)`. -/
def joinLines (ls : List (List Char)) : List Char := List.intercalate ['\n'] ls

/-- The markdown text built by `generate_summary` (the code aborts the run
instead when the phase list is empty; see `generate_summary`). -/
def generateSummaryText (phases : List Phase) (min_hourly_rate max_hourly_rate
    min_weekly_hours max_weekly_hours : ℚ) (final_quote : Bool) : List Char :=
  match calculate_estimates phases min_hourly_rate max_hourly_rate
      min_weekly_hours max_weekly_hours with
  | (total_hours_min, total_hours_max, min_price, max_price, min_weeks, max_weeks) =>
    let head : List (List Char) := [("---").toList, []]
    let body : List (List Char) :=
      if final_quote then
        let final_hours := avgRound total_hours_min total_hours_max
        let final_price := round_to_multiple (((min_price : ℚ) + (max_price : ℚ)) / 2) 5
        let final_weeks := avgRound min_weeks max_weeks
        [("### Preventivo finale").toList, [],
         ("| Fase | Ore (media) |").toList,
         ("| :--- | :---: |").toList]
        ++ phases.map (fun ph =>
             ("| ").toList ++ ph.name ++ (" | ").toList
               ++ intDigits (avgRound ph.min_hours ph.max_hours) ++ (" |").toList)
        ++ [("| **TOTALE** | **").toList ++ intDigits final_hours ++ ("** |").toList,
            [],
            ("### Costo del progetto").toList, [],
            ("**Prezzo finale: €").toList ++ renderPrice final_price ++ ("**").toList,
            [],
            ("### Timeline").toList, [],
            ("**").toList ++ intDigits final_weeks
              ++ (" settimane** per il completamento.").toList]
      else
        [("### Riepilogo stime").toList, [],
         ("| Fase | Ore Min | Ore Max |").toList,
         ("| :--- | :---: | :---: |").toList]
        ++ phases.map (fun ph =>
             ("| ").toList ++ ph.name ++ (" | ").toList ++ intDigits ph.min_hours
               ++ (" | ").toList ++ intDigits ph.max_hours ++ (" |").toList)
        ++ [("| **TOTALE** | **").toList ++ intDigits total_hours_min
              ++ ("** | **").toList ++ intDigits total_hours_max ++ ("** |").toList,
            [],
            ("### Stima economica").toList, [],
            ("**Range di prezzo: €").toList ++ renderPrice min_price
              ++ (" - €").toList ++ renderPrice max_price ++ ("**").toList,
            [],
            ("_Nota: i costi indicati si riferiscono esclusivamente alle attività di sviluppo. Eventuali costi per servizi esterni (hosting, domini, licenze software, servizi cloud) non sono inclusi nella stima e saranno quantificati separatamente in base alle specifiche esigenze del progetto._").toList,
            [],
            ("### Timeline stimata").toList, [],
            ("**").toList ++ intDigits min_weeks ++ ("-").toList ++ intDigits max_weeks
              ++ (" settimane** per il completamento.").toList,
            [],
            ("_Nota: la timeline è indicativa e dipende dalla complessità delle implementazioni, eventuali revisioni richieste e disponibilità del team di sviluppo._").toList]
    let closing : List (List Char) :=
      [[],
       ("### Modalità di pagamento").toList,
       ("Acconto del 50% all\x27inizio del progetto oppure pagamento a milestone in base agli accordi stabiliti.").toList,
       [],
       ("### Considerazioni finali").toList,
       ("_Le stime si basano sulle specifiche tecniche fornite. Eventuali modifiche sostanziali potrebbero comportare variazioni di costo e timeline._").toList]
    joinLines (head ++ body ++ closing)

/-- `generate_summary` from `stima.py`: `none` models the `sys.exit(1)`
taken when the phase list is empty. -/
def generate_summary (phases : List Phase) (min_hourly_rate max_hourly_rate
    min_weekly_hours max_weekly_hours : ℚ) (final_quote : Bool) :
    Option (List Char) :=
  if phases.isEmpty then none
  else some (generateSummaryText phases min_hourly_rate max_hourly_rate
    min_weekly_hours max_weekly_hours final_quote)

/-! ## Document updater (`update_markdown_file`) -/

/-- The range-mode summary marker `"---\n\n### Riepilogo stime"`. -/
def mR : List Char := ("---\n\n### Riepilogo stime").toList

/-- The final-mode summary marker `"---\n\n### Preventivo finale"`. -/
def mP : List Char := ("---\n\n### Preventivo finale").toList

/-- `str.find`: index of the first occurrence of `pat`, if any. -/
def strFind (pat : List Char) : List Char → Option ℕ
  | [] => if pat.isPrefixOf ([] : List Char) then some 0 else none
  | c :: s =>
    if pat.isPrefixOf (c :: s) then some 0
    else (strFind pat s).map (· + 1)

/-- The text transformation of `update_markdown_file`: the markers are tried
in the fixed order `[mR, mP]` and the loop stops at the first one found;
everything from that index on is replaced by the summary, else the summary
is appended after the `rstrip`-ped content and a blank line. -/
def updateText (content summary : List Char) : List Char :=
  match strFind mR content with
  | some i => content.take i ++ summary
  | none =>
    match strFind mP content with
    | some i => content.take i ++ summary
    | none => rstrip content ++ '\n' :: '\n' :: summary

/-- `update_markdown_file` from `stima.py` as a text transformation
(`no_edit = true` leaves the document unchanged). -/
def update_markdown_file (content summary : List Char) (no_edit : Bool) :
    List Char :=
  if no_edit then content else updateText content summary

/-! ## Output sinks of `main` -/

/-- Messages / actions of the output phase of `main`. -/
inductive Msg where
  | updatedFile
  | warnUpdateFailed
  | savedOutput
  | errorSaving
  | printedSummary
  | clipboardCopied
  | warnClipboard
deriving DecidableEq

/-- The literal `"-"` output path sentinel. -/
def dashL : List Char := ("-").toList

/-- The output phase of `main` after the summary is generated: updates the
source file unless `no_edit`, then writes the explicit output file (fatal on
failure: exit status 1, nothing further runs) or prints to stdout, then
copies to the clipboard unless suppressed.  The file-write branch is guarded
by `args.output and args.output != "-"`, so it is taken only for a truthy
(non-empty) path different from `-`; an absent, empty or `-` path prints to
stdout instead.  The three booleans are oracles for the success of the
corresponding side effects.  Returns the trace of messages/actions and the
exit status. -/
def mainSinks (no_edit : Bool) (output : Option (List Char))
    (no_clipboard : Bool) (srcWriteOk outWriteOk clipOk : Bool) :
    List Msg × ℕ :=
  let t₁ : List Msg :=
    if no_edit then []
    else if srcWriteOk then [Msg.updatedFile] else [Msg.warnUpdateFailed]
  let clipT : List Msg :=
    if no_clipboard then []
    else if clipOk then [Msg.clipboardCopied] else [Msg.warnClipboard]
  match output with
  | some f =>
    if f ≠ [] ∧ f ≠ dashL then
      if outWriteOk then (t₁ ++ [Msg.savedOutput] ++ clipT, 0)
      else (t₁ ++ [Msg.errorSaving], 1)
    else (t₁ ++ [Msg.printedSummary] ++ clipT, 0)
  | none => (t₁ ++ [Msg.printedSummary] ++ clipT, 0)

/-! ## Helper lemmas -/

theorem foldl_add_eq_sum (f : Phase → ℕ) (l : List Phase) (init : ℕ) :
    l.foldl (fun acc ph => acc + f ph) init = init + (l.map f).sum := by
  induction l generalizing init with
  | nil => simp
  | cons ph rest ih => simp [List.foldl_cons, ih]; omega

theorem pyRound_intCast (n : ℤ) : pyRound ((n : ℚ)) = n := by
  unfold pyRound
  norm_num

theorem pyRound_int_add_half (k : ℤ) :
    pyRound ((k : ℚ) + 1/2) = if k % 2 = 0 then k else k + 1 := by
  unfold pyRound
  have hf : ⌊(k : ℚ) + 1/2⌋ = k := by
    rw [add_comm, Int.floor_add_int]
    norm_num
  rw [hf]
  norm_num

/-! ## C1: the estimate calculator -/

/-- Claim C1: for a non-empty phase list, `calculate_estimates` returns the
sums of min/max hours, prices rounded to the nearest multiple of 5 via
`round_to_multiple`, and weeks obtained by rounding min-hours at the fastest
weekly pace and max-hours at the slowest weekly pace. -/
theorem calculate_estimates_spec (phases : List Phase)
    (min_hourly_rate max_hourly_rate min_weekly_hours max_weekly_hours : ℚ)
    (_hne : phases ≠ []) :
    calculate_estimates phases min_hourly_rate max_hourly_rate
        min_weekly_hours max_weekly_hours =
      ((phases.map Phase.min_hours).sum,
       (phases.map Phase.max_hours).sum,
       round_to_multiple (((phases.map Phase.min_hours).sum : ℚ) * min_hourly_rate) 5,
       round_to_multiple (((phases.map Phase.max_hours).sum : ℚ) * max_hourly_rate) 5,
       pyRound (((phases.map Phase.min_hours).sum : ℚ) / max_weekly_hours),
       pyRound (((phases.map Phase.max_hours).sum : ℚ) / min_weekly_hours)) := by
  unfold calculate_estimates
  rw [foldl_add_eq_sum, foldl_add_eq_sum]
  norm_num

/-- Witness for C1 at the spec's two-phase scenario. -/
theorem calculate_estimates_spec_witness :
    ([⟨("Design").toList, 10, 15⟩, ⟨("Build").toList, 20, 25⟩] : List Phase) ≠ []
    ∧ calculate_estimates
        [⟨("Design").toList, 10, 15⟩, ⟨("Build").toList, 20, 25⟩] 34 36 12 16 =
      (([⟨("Design").toList, 10, 15⟩, ⟨("Build").toList, 20, 25⟩].map Phase.min_hours).sum,
       ([⟨("Design").toList, 10, 15⟩, ⟨("Build").toList, 20, 25⟩].map Phase.max_hours).sum,
       round_to_multiple ((([⟨("Design").toList, 10, 15⟩, ⟨("Build").toList, 20, 25⟩].map Phase.min_hours).sum : ℚ) * 34) 5,
       round_to_multiple ((([⟨("Design").toList, 10, 15⟩, ⟨("Build").toList, 20, 25⟩].map Phase.max_hours).sum : ℚ) * 36) 5,
       pyRound ((([⟨("Design").toList, 10, 15⟩, ⟨("Build").toList, 20, 25⟩].map Phase.min_hours).sum : ℚ) / 16),
       pyRound ((([⟨("Design").toList, 10, 15⟩, ⟨("Build").toList, 20, 25⟩].map Phase.max_hours).sum : ℚ) / 12)) :=
  ⟨by decide, calculate_estimates_spec _ 34 36 12 16 (by decide)⟩

/-! ## C8: idempotence of round_to_multiple -/

/-- Claim C8: `round_to_multiple (·, 5)` is idempotent on every rational. -/
theorem round_to_multiple_idem (x : ℚ) :
    round_to_multiple ((round_to_multiple x 5 : ℤ) : ℚ) 5 = round_to_multiple x 5 := by
  unfold round_to_multiple
  have h : (((5 : ℤ) * pyRound (x / ((5 : ℤ) : ℚ)) : ℤ) : ℚ) / ((5 : ℤ) : ℚ)
      = ((pyRound (x / ((5 : ℤ) : ℚ)) : ℤ) : ℚ) := by
    push_cast
    field_simp
  rw [h, pyRound_intCast]

/-! ## C10: averages round half to even -/

/-- Claim C10: every averaging computation `round((a+b)/2)` in
`generate_summary` (per-phase hours, final total hours, final weeks) rounds
exact half-integer ties to the even neighbour; in particular an odd sum
`a + b` yields an even result adjacent to the exact midpoint, and the pair
`(2, 3)` averages to `2`, not `3`. -/
theorem avg_half_to_even (a b : ℤ) (h : (a + b) % 2 = 1) :
    avgRound a b % 2 = 0
    ∧ (2 * avgRound a b = a + b - 1 ∨ 2 * avgRound a b = a + b + 1)
    ∧ avgRound 2 3 = 2 := by
  have hs : a + b = 2 * ((a + b) / 2) + 1 := by omega
  have hq : ((a : ℚ) + (b : ℚ)) / 2 = (((a + b) / 2 : ℤ) : ℚ) + 1/2 := by
    rw [show ((a : ℚ) + (b : ℚ)) = (((a + b) : ℤ) : ℚ) by push_cast; ring]
    rw [show ((a + b : ℤ) : ℚ) = ((2 * ((a + b) / 2) + 1 : ℤ) : ℚ) by rw [← hs]]
    push_cast
    ring
  have hval : avgRound a b = if ((a + b) / 2) % 2 = 0 then (a + b) / 2
      else (a + b) / 2 + 1 := by
    unfold avgRound
    rw [hq, pyRound_int_add_half]
  refine ⟨?_, ?_, ?_⟩
  · rw [hval]; split <;> omega
  · rw [hval]; split <;> omega
  · have h23 : ((2 : ℤ) + 3) % 2 = 1 := by decide
    have : avgRound 2 3 = if (((2 : ℤ) + 3) / 2) % 2 = 0 then ((2 : ℤ) + 3) / 2
        else ((2 : ℤ) + 3) / 2 + 1 := by
      unfold avgRound
      have hq' : ((2 : ℤ) : ℚ) + ((3 : ℤ) : ℚ) = (((2 + 3 : ℤ)) : ℚ) := by push_cast; ring
      rw [show (((2 : ℤ) : ℚ) + ((3 : ℤ) : ℚ)) / 2 = ((((2 : ℤ) + 3) / 2 : ℤ) : ℚ) + 1/2 by
        norm_num]
      rw [pyRound_int_add_half]
    rw [this]; decide

/-- Witness for C10 at the weeks pair `(2, 3)`. -/
theorem avg_half_to_even_witness :
    ((2 : ℤ) + 3) % 2 = 1
    ∧ (avgRound 2 3 % 2 = 0
       ∧ (2 * avgRound 2 3 = 2 + 3 - 1 ∨ 2 * avgRound 2 3 = 2 + 3 + 1)
       ∧ avgRound 2 3 = 2) :=
  ⟨by decide, avg_half_to_even 2 3 (by decide)⟩

/-! ## C9: output sink error handling in `main` -/

/-- Claim C9: if writing the summary back into the source file fails, `main`
records a warning and otherwise continues exactly as in the success case
(same remaining sinks, same exit status); if writing an explicitly requested
output file fails, the run exits with status 1 and neither prints the
summary nor touches the clipboard. -/
theorem output_sink_failures (output : Option (List Char))
    (no_clip outOk clipOk srcOk : Bool) (f : List Char)
    (hfe : f ≠ []) (hf : f ≠ dashL) :
    ((mainSinks false output no_clip false outOk clipOk).1
        = Msg.warnUpdateFailed :: ((mainSinks false output no_clip true outOk clipOk).1).tail
      ∧ (mainSinks false output no_clip false outOk clipOk).2
        = (mainSinks false output no_clip true outOk clipOk).2)
    ∧ ((mainSinks false (some f) no_clip srcOk false clipOk).2 = 1
      ∧ Msg.clipboardCopied ∉ (mainSinks false (some f) no_clip srcOk false clipOk).1
      ∧ Msg.warnClipboard ∉ (mainSinks false (some f) no_clip srcOk false clipOk).1
      ∧ Msg.printedSummary ∉ (mainSinks false (some f) no_clip srcOk false clipOk).1) := by
  constructor
  · cases output with
    | none => simp [mainSinks]
    | some g =>
      by_cases hg : g ≠ [] ∧ g ≠ dashL <;> cases outOk <;> simp [mainSinks, hg]
  · cases srcOk <;> simp [mainSinks, hf, hfe]

/-- Witness for C9 with an explicit output file named `out.md`. -/
theorem output_sink_failures_witness :
    ("out.md").toList ≠ []
    ∧ ("out.md").toList ≠ dashL
    ∧ (((mainSinks false none false false true true).1
        = Msg.warnUpdateFailed :: ((mainSinks false none false true true true).1).tail
      ∧ (mainSinks false none false false true true).2
        = (mainSinks false none false true true true).2)
    ∧ ((mainSinks false (some (("out.md").toList)) false true false true).2 = 1
      ∧ Msg.clipboardCopied ∉ (mainSinks false (some (("out.md").toList)) false true false true).1
      ∧ Msg.warnClipboard ∉ (mainSinks false (some (("out.md").toList)) false true false true).1
      ∧ Msg.printedSummary ∉ (mainSinks false (some (("out.md").toList)) false true false true).1)) :=
  ⟨by decide, by decide,
    output_sink_failures none false true true true (("out.md").toList) (by decide) (by decide)⟩

/-! ## C3: reserved headings in the extractor -/

/-- Counterexample to claim C3: a heading titled exactly `Preventivo finale`
does become a phase name (only three titles are excluded, and by prefix),
and a heading that merely begins with a reserved title does **not** set the
cursor. -/
theorem reserved_headings_cx :
    parse_markdown_file (("### Preventivo finale\n**Stima ore**: 5 ore").toList)
        = [⟨("Preventivo finale").toList, 5, 5⟩]
    ∧ lineStep none (("### Riepilogo stimeX").toList) = (none, []) := by
  decide

/-- Claim C3 as amended: a line whose trimmed form starts with `### ` sets
the current-phase cursor (with the marker stripped, emitting nothing) if and
only if the trimmed line does not start with any of the three reserved
prefixes `### Riepilogo stime`, `### Stima economica`, `### Timeline
stimata`; `Preventivo finale` is not excluded and the test is a prefix
test, not an equality test. -/
theorem reserved_headings_amended (line : List Char)
    (h : hMark.isPrefixOf (strip line) = true) :
    lineStep none line = (some (headingName line), [])
      ↔ (resv1.isPrefixOf (strip line) = false
         ∧ resv2.isPrefixOf (strip line) = false
         ∧ resv3.isPrefixOf (strip line) = false) := by
  by_cases h1 : resv1.isPrefixOf (strip line) = true
  · simp [lineStep, isHeading, h, h1]
  · by_cases h2 : resv2.isPrefixOf (strip line) = true
    · simp [lineStep, isHeading, h, h1, h2]
    · by_cases h3 : resv3.isPrefixOf (strip line) = true
      · simp [lineStep, isHeading, h, h1, h2, h3]
      · simp [lineStep, isHeading, h, h1, h2, h3]

/-- Witness for C3 (amended) at the line `### Preventivo finale`. -/
theorem reserved_headings_amended_witness :
    hMark.isPrefixOf (strip (("### Preventivo finale").toList)) = true
    ∧ (lineStep none (("### Preventivo finale").toList)
          = (some (headingName (("### Preventivo finale").toList)), [])
        ↔ (resv1.isPrefixOf (strip (("### Preventivo finale").toList)) = false
           ∧ resv2.isPrefixOf (strip (("### Preventivo finale").toList)) = false
           ∧ resv3.isPrefixOf (strip (("### Preventivo finale").toList)) = false)) :=
  ⟨by decide, reserved_headings_amended (("### Preventivo finale").toList) (by decide)⟩

/-! ## C5: the min ≤ max invariant of extracted phases -/

/-- Counterexample to claim C5: the reversed range line `15-10 ore` yields a
phase with `min_hours = 15 > 10 = max_hours`. -/
theorem phase_invariant_cx :
    parse_markdown_file (("### A\n**Stima ore**: 15-10 ore").toList)
        = [⟨("A").toList, 15, 10⟩]
    ∧ ¬ ((15 : ℕ) ≤ 10) := by
  decide

/-- The matched range on a line, if any, lists the smaller integer first. -/
def rangeOrdered (line : List Char) : Bool :=
  match searchRange line with
  | some (a, b) => a ≤ b
  | none => true

theorem lineStep_phase_le (cur : Option (List Char)) (line : List Char)
    (hline : rangeOrdered line = true) :
    ∀ ph ∈ (lineStep cur line).2, ph.min_hours ≤ ph.max_hours := by
  intro ph hph
  unfold lineStep at hph
  split at hph
  · simp at hph
  · split at hph
    · simp at hph
    · split at hph
      · split at hph
        · rename_i a b heq
          unfold rangeOrdered at hline
          rw [heq] at hline
          simp at hph hline
          rw [hph]
          exact hline
        · split at hph
          · simp at hph
            rw [hph]
          · simp at hph
      · simp at hph

theorem parseLines_phase_le (lines : List (List Char)) (cur : Option (List Char))
    (h : ∀ line ∈ lines, rangeOrdered line = true) :
    ∀ ph ∈ parseLines lines cur, ph.min_hours ≤ ph.max_hours := by
  induction lines generalizing cur with
  | nil => intro ph hph; simp [parseLines] at hph
  | cons line rest ih =>
    intro ph hph
    have hstep : parseLines (line :: rest) cur
        = (lineStep cur line).2 ++ parseLines rest (lineStep cur line).1 := rfl
    rw [hstep] at hph
    rcases List.mem_append.mp hph with hl | hr
    · exact lineStep_phase_le cur line (h line (by simp)) ph hl
    · exact ih (lineStep cur line).1 (fun l hl => h l (by simp [hl])) ph hr

/-- Claim C5 as amended: every phase extracted by `parse_markdown_file`
satisfies `min_hours ≤ max_hours` **provided** every matched range on the
document's lines lists the smaller integer first; a reversed range such as
`15-10 ore` is copied as-is and violates the invariant. -/
theorem phase_invariant_amended (content : List Char)
    (h : ∀ line ∈ splitNl content, rangeOrdered line = true) :
    ∀ ph ∈ parse_markdown_file content, ph.min_hours ≤ ph.max_hours :=
  parseLines_phase_le (splitNl content) none h

/-- Witness for C5 (amended) on a well-formed two-phase document. -/
theorem phase_invariant_amended_witness :
    (∀ line ∈ splitNl (("### D\n**Stima ore**: 10-15 ore").toList),
      rangeOrdered line = true)
    ∧ ∀ ph ∈ parse_markdown_file (("### D\n**Stima ore**: 10-15 ore").toList),
        ph.min_hours ≤ ph.max_hours :=
  ⟨by decide, phase_invariant_amended (("### D\n**Stima ore**: 10-15 ore").toList)
    (by decide)⟩

/-! ## C6: marker priority in the updater -/

/-- A document containing the final-mode marker (at index 0) before the
range-mode marker (at index 27). -/
def mPxR : List Char := mP ++ ("X").toList ++ mR

/-- Counterexample to claim C6: with the final-mode marker at a smaller
position (0) than the range-mode marker (27), the updater does **not**
replace from position 0: priority, not position, wins. -/
theorem marker_priority_cx :
    strFind mP mPxR = some 0
    ∧ strFind mR mPxR = some 27
    ∧ update_markdown_file mPxR (("S").toList) false
        ≠ mPxR.take 0 ++ ("S").toList := by
  decide

/-- Claim C6 as amended: the updater replaces from the first occurrence of
the range-mode marker whenever that marker occurs anywhere in the document;
the final-mode marker's first occurrence is used only when the range-mode
marker is absent (fixed priority order wins, not the smaller search
position). -/
theorem marker_priority_amended (content summary : List Char) :
    (∀ i, strFind mR content = some i →
      update_markdown_file content summary false = content.take i ++ summary)
    ∧ (strFind mR content = none → ∀ i, strFind mP content = some i →
      update_markdown_file content summary false = content.take i ++ summary) := by
  constructor
  · intro i h
    simp [update_markdown_file, updateText, h]
  · intro h i h2
    simp [update_markdown_file, updateText, h, h2]

/-- Witness for C6 (amended): on `mPxR` the range-mode marker at index 27
wins even though the final-mode marker sits at index 0. -/
theorem marker_priority_amended_witness :
    update_markdown_file mPxR (("S").toList) false
      = mPxR.take 27 ++ ("S").toList :=
  (marker_priority_amended mPxR (("S").toList)).1 27 (by decide)

/-! ## C7: currency formatting -/

theorem digitChar_ne_comma (k : ℕ) : digitChar k ≠ ',' := by
  unfold digitChar
  have h : k % 10 < 10 := Nat.mod_lt _ (by omega)
  set m := k % 10 with hm
  interval_cases m <;> decide

theorem natDigitsGo_mem (fuel : ℕ) :
    ∀ (n : ℕ) (acc : List Char), ∀ c ∈ natDigitsGo fuel n acc,
      c ∈ acc ∨ ∃ k, c = digitChar k := by
  induction fuel with
  | zero => intro n acc c hc; exact Or.inl hc
  | succ fuel ih =>
    intro n acc c hc
    unfold natDigitsGo at hc
    split at hc
    · rcases List.mem_cons.mp hc with h | h
      · exact Or.inr ⟨n, h⟩
      · exact Or.inl h
    · rcases ih (n / 10) (digitChar (n % 10) :: acc) c hc with h | h
      · rcases List.mem_cons.mp h with h2 | h2
        · exact Or.inr ⟨n % 10, h2⟩
        · exact Or.inl h2
      · exact Or.inr h

theorem natDigits_ne_comma (n : ℕ) : ∀ c ∈ natDigits n, c ≠ ',' := by
  intro c hc
  rcases natDigitsGo_mem (n + 1) n [] c hc with h | ⟨k, hk⟩
  · simp at h
  · rw [hk]; exact digitChar_ne_comma k

theorem group3Go_map_commaDot (l : List Char) (h : ∀ c ∈ l, c ≠ ',') :
    (group3Go ',' l).map commaDot = group3Go '.' l := by
  suffices H : ∀ (N : ℕ) (l : List Char), l.length ≤ N → (∀ c ∈ l, c ≠ ',') →
      (group3Go ',' l).map commaDot = group3Go '.' l from H l.length l le_rfl h
  intro N
  induction N with
  | zero =>
    intro l hlen _
    have : l = [] := List.eq_nil_of_length_eq_zero (by omega)
    subst this
    simp [group3Go]
  | succ N ih =>
    intro l hlen hne
    rcases l with _ | ⟨a, _ | ⟨b, _ | ⟨c, _ | ⟨d, rest⟩⟩⟩⟩
    · simp [group3Go]
    · simp [group3Go, commaDot, hne a (by simp)]
    · simp [group3Go, commaDot, hne a (by simp), hne b (by simp)]
    · simp [group3Go, commaDot, hne a (by simp), hne b (by simp), hne c (by simp)]
    · have ha := hne a (by simp)
      have hb := hne b (by simp)
      have hc := hne c (by simp)
      have hrec := ih (d :: rest) (by simp at hlen ⊢; omega)
        (fun x hx => hne x (by simp at hx ⊢; tauto))
      simp [group3Go, commaDot, ha, hb, hc, hrec]

/-- Claim C7: the price text rendered by the f-string `,.0f` formatting plus
`.replace(",", ".")` (used by both the range-mode price line and the
final-mode price line) equals, for every non-negative integer value, the
value's decimal digits with a `.` grouping separator every three digits from
the right; in particular `1000` renders as `1.000`. -/
theorem price_format_spec :
    (∀ n : ℕ, renderPrice (n : ℤ) = group3 '.' (natDigits n))
    ∧ renderPrice 1000 = ("1.000").toList := by
  constructor
  · intro n
    unfold renderPrice
    have hneg : ¬ ((n : ℤ) < 0) := by
      simp
    rw [if_neg hneg]
    have habs : ((n : ℤ)).natAbs = n := Int.natAbs_ofNat n
    rw [habs, List.nil_append]
    unfold group3
    have hrw := group3Go_map_commaDot ((natDigits n).reverse)
      (fun c hc => natDigits_ne_comma n c (List.mem_reverse.mp hc))
    rw [List.map_reverse, hrw]
  · decide

/-! ## C4: the estimate-line regexes -/

/-- The spec's wording for the range pattern: the line contains two
(non-empty) digit runs separated by a hyphen or en-dash, then whitespace,
then the word `ore`. -/
def containsRangePat (s : List Char) : Prop :=
  ∃ p d₁ dash d₂ w t,
    s = p ++ (d₁ ++ dash :: (d₂ ++ (w ++ (oreL ++ t))))
    ∧ d₁ ≠ [] ∧ (∀ c ∈ d₁, isDigitCh c = true)
    ∧ (dash = '-' ∨ dash = '–')
    ∧ d₂ ≠ [] ∧ (∀ c ∈ d₂, isDigitCh c = true)
    ∧ w ≠ [] ∧ (∀ c ∈ w, isPySpace c = true)

/-- The spec's wording for the single-value pattern: a (non-empty) digit
run, then whitespace, then the word `ore`. -/
def containsSinglePat (s : List Char) : Prop :=
  ∃ p d w t,
    s = p ++ (d ++ (w ++ (oreL ++ t)))
    ∧ d ≠ [] ∧ (∀ c ∈ d, isDigitCh c = true)
    ∧ w ≠ [] ∧ (∀ c ∈ w, isPySpace c = true)

theorem space_not_digit (c : Char) (h : isPySpace c = true) : isDigitCh c = false := by
  unfold isPySpace at h
  simp only [Bool.or_eq_true, decide_eq_true_eq] at h
  rcases h with ((((h | h) | h) | h) | h) | h <;> subst h <;> decide

theorem takeWhile_all_append (p : Char → Bool) (l r : List Char)
    (hl : ∀ c ∈ l, p c = true)
    (hr : ∀ c, r.head? = some c → p c = false) :
    (l ++ r).takeWhile p = l ∧ (l ++ r).dropWhile p = r := by
  induction l with
  | nil =>
    cases r with
    | nil => simp
    | cons c r' =>
      have hc := hr c rfl
      simp [List.takeWhile_cons, List.dropWhile_cons, hc]
  | cons a l' ih =>
    have ha := hl a (by simp)
    have ih' := ih (fun c hc => hl c (by simp [hc]))
    simp [List.takeWhile_cons, List.dropWhile_cons, ha, ih'.1, ih'.2]

theorem matchRangeAt_cons_eq (s : List Char) (c : Char) (r₂ : List Char)
    (h1 : s.takeWhile isDigitCh ≠ []) (h2 : s.dropWhile isDigitCh = c :: r₂) :
    matchRangeAt s =
      (if c = '-' || c = '–' then
        if r₂.takeWhile isDigitCh = [] then none else
        if ((r₂.dropWhile isDigitCh).takeWhile isPySpace) = [] then none else
        if oreL.isPrefixOf ((r₂.dropWhile isDigitCh).dropWhile isPySpace) then
          some (digitsToNat (s.takeWhile isDigitCh), digitsToNat (r₂.takeWhile isDigitCh))
        else none
      else none) := by
  unfold matchRangeAt
  rw [if_neg h1, h2]

theorem matchRangeAt_some_decomp {s : List Char}
    (h : (matchRangeAt s).isSome) :
    ∃ d₁ dash d₂ w t,
      s = d₁ ++ dash :: (d₂ ++ (w ++ (oreL ++ t)))
      ∧ d₁ ≠ [] ∧ (∀ c ∈ d₁, isDigitCh c = true)
      ∧ (dash = '-' ∨ dash = '–')
      ∧ d₂ ≠ [] ∧ (∀ c ∈ d₂, isDigitCh c = true)
      ∧ w ≠ [] ∧ (∀ c ∈ w, isPySpace c = true) := by
  unfold matchRangeAt at h
  by_cases h1 : s.takeWhile isDigitCh = []
  · rw [if_pos h1] at h; simp at h
  · rw [if_neg h1] at h
    split at h
    · simp at h
    · rename_i c r₂ hdrop
      by_cases hdash : (c = '-' || c = '–') = true
      · rw [if_pos hdash] at h
        by_cases h2 : r₂.takeWhile isDigitCh = []
        · rw [if_pos h2] at h; simp at h
        · rw [if_neg h2] at h
          by_cases h3 : ((r₂.dropWhile isDigitCh).takeWhile isPySpace) = []
          · rw [if_pos h3] at h; simp at h
          · rw [if_neg h3] at h
            by_cases h4 : oreL.isPrefixOf ((r₂.dropWhile isDigitCh).dropWhile isPySpace) = true
            · obtain ⟨t, ht⟩ := List.isPrefixOf_iff_prefix.mp h4
              refine ⟨s.takeWhile isDigitCh, c, r₂.takeWhile isDigitCh,
                (r₂.dropWhile isDigitCh).takeWhile isPySpace, t, ?_, h1, ?_, ?_, h2, ?_, h3, ?_⟩
              · conv_lhs => rw [← List.takeWhile_append_dropWhile isDigitCh s]
                rw [hdrop]
                congr 1
                congr 1
                conv_lhs => rw [← List.takeWhile_append_dropWhile isDigitCh r₂]
                congr 1
                conv_lhs =>
                  rw [← List.takeWhile_append_dropWhile isPySpace (r₂.dropWhile isDigitCh)]
                rw [ht]
              · exact fun c hc => List.mem_takeWhile_imp hc
              · simpa using hdash
              · exact fun c hc => List.mem_takeWhile_imp hc
              · exact fun c hc => List.mem_takeWhile_imp hc
            · simp [h4] at h
      · rw [if_neg hdash] at h; simp at h

theorem matchSingleAt_some_decomp {s : List Char}
    (h : (matchSingleAt s).isSome) :
    ∃ d w t,
      s = d ++ (w ++ (oreL ++ t))
      ∧ d ≠ [] ∧ (∀ c ∈ d, isDigitCh c = true)
      ∧ w ≠ [] ∧ (∀ c ∈ w, isPySpace c = true) := by
  unfold matchSingleAt at h
  by_cases h1 : s.takeWhile isDigitCh = []
  · rw [if_pos h1] at h; simp at h
  · rw [if_neg h1] at h
    by_cases h2 : ((s.dropWhile isDigitCh).takeWhile isPySpace) = []
    · rw [if_pos h2] at h; simp at h
    · rw [if_neg h2] at h
      by_cases h3 : oreL.isPrefixOf ((s.dropWhile isDigitCh).dropWhile isPySpace) = true
      · obtain ⟨t, ht⟩ := List.isPrefixOf_iff_prefix.mp h3
        refine ⟨s.takeWhile isDigitCh, (s.dropWhile isDigitCh).takeWhile isPySpace, t,
          ?_, h1, ?_, h2, ?_⟩
        · conv_lhs => rw [← List.takeWhile_append_dropWhile isDigitCh s]
          congr 1
          conv_lhs => rw [← List.takeWhile_append_dropWhile isPySpace (s.dropWhile isDigitCh)]
          rw [ht]
        · exact fun c hc => List.mem_takeWhile_imp hc
        · exact fun c hc => List.mem_takeWhile_imp hc
      · simp [h3] at h

theorem matchRangeAt_isSome_of_parts (d₁ d₂ w t : List Char) (dash : Char)
    (h1 : d₁ ≠ []) (h2 : ∀ c ∈ d₁, isDigitCh c = true)
    (h3 : dash = '-' ∨ dash = '–')
    (h4 : d₂ ≠ []) (h5 : ∀ c ∈ d₂, isDigitCh c = true)
    (h6 : w ≠ []) (h7 : ∀ c ∈ w, isPySpace c = true) :
    (matchRangeAt (d₁ ++ dash :: (d₂ ++ (w ++ (oreL ++ t))))).isSome := by
  have hdashd : isDigitCh dash = false := by
    rcases h3 with h | h <;> subst h <;> decide
  have hwhead : ∀ c, (w ++ (oreL ++ t)).head? = some c → isDigitCh c = false := by
    cases w with
    | nil => exact absurd rfl h6
    | cons w0 w' =>
      intro c hc
      simp at hc
      subst hc
      exact space_not_digit w0 (h7 w0 (by simp))
  have horehead : ∀ c, (oreL ++ t).head? = some c → isPySpace c = false := by
    intro c hc
    simp [oreL] at hc
    subst hc
    decide
  have hA := takeWhile_all_append isDigitCh d₁ (dash :: (d₂ ++ (w ++ (oreL ++ t)))) h2
    (by intro c hc; simp at hc; subst hc; exact hdashd)
  have hB := takeWhile_all_append isDigitCh d₂ (w ++ (oreL ++ t)) h5 hwhead
  have hC := takeWhile_all_append isPySpace w (oreL ++ t) h7 horehead
  have hdashb : (dash = '-' || dash = '–') = true := by
    rcases h3 with h | h <;> subst h <;> decide
  rw [matchRangeAt_cons_eq _ dash (d₂ ++ (w ++ (oreL ++ t))) (by rw [hA.1]; exact h1) hA.2]
  rw [if_pos hdashb, if_neg (by rw [hB.1]; exact h4)]
  rw [hB.2]
  rw [if_neg (by rw [hC.1]; exact h6)]
  rw [hC.2]
  rw [if_pos (List.isPrefixOf_iff_prefix.mpr (List.prefix_append oreL t))]
  simp

theorem matchSingleAt_isSome_of_parts (d w t : List Char)
    (h1 : d ≠ []) (h2 : ∀ c ∈ d, isDigitCh c = true)
    (h3 : w ≠ []) (h4 : ∀ c ∈ w, isPySpace c = true) :
    (matchSingleAt (d ++ (w ++ (oreL ++ t)))).isSome := by
  have hwhead : ∀ c, (w ++ (oreL ++ t)).head? = some c → isDigitCh c = false := by
    cases w with
    | nil => exact absurd rfl h3
    | cons w0 w' =>
      intro c hc
      simp at hc
      subst hc
      exact space_not_digit w0 (h4 w0 (by simp))
  have horehead : ∀ c, (oreL ++ t).head? = some c → isPySpace c = false := by
    intro c hc
    simp [oreL] at hc
    subst hc
    decide
  have hA := takeWhile_all_append isDigitCh d (w ++ (oreL ++ t)) h2 hwhead
  have hC := takeWhile_all_append isPySpace w (oreL ++ t) h4 horehead
  unfold matchSingleAt
  rw [hA.1, hA.2, if_neg h1]
  rw [hC.1, hC.2, if_neg h3]
  rw [if_pos (List.isPrefixOf_iff_prefix.mpr (List.prefix_append oreL t))]
  simp

theorem searchRange_some_suffix {s : List Char} {r : ℕ × ℕ}
    (h : searchRange s = some r) :
    ∃ u, u <:+ s ∧ matchRangeAt u = some r := by
  induction s with
  | nil => simp [searchRange] at h
  | cons c s' ih =>
    unfold searchRange at h
    rcases hm : matchRangeAt (c :: s') with _ | r'
    · rw [hm] at h
      obtain ⟨u, hu, hmu⟩ := ih h
      exact ⟨u, hu.trans (List.suffix_cons c s'), hmu⟩
    · rw [hm] at h
      simp at h
      subst h
      exact ⟨c :: s', List.suffix_refl _, hm⟩

theorem searchSingle_some_suffix {s : List Char} {r : ℕ}
    (h : searchSingle s = some r) :
    ∃ u, u <:+ s ∧ matchSingleAt u = some r := by
  induction s with
  | nil => simp [searchSingle] at h
  | cons c s' ih =>
    unfold searchSingle at h
    rcases hm : matchSingleAt (c :: s') with _ | r'
    · rw [hm] at h
      obtain ⟨u, hu, hmu⟩ := ih h
      exact ⟨u, hu.trans (List.suffix_cons c s'), hmu⟩
    · rw [hm] at h
      simp at h
      subst h
      exact ⟨c :: s', List.suffix_refl _, hm⟩

theorem searchRange_isSome_of_suffix {u s : List Char}
    (hs : u <:+ s) (h : (matchRangeAt u).isSome) :
    (searchRange s).isSome := by
  induction s with
  | nil =>
    have : u = [] := List.eq_nil_of_suffix_nil hs
    subst this
    simp [matchRangeAt] at h
  | cons c s' ih =>
    unfold searchRange
    rcases hm : matchRangeAt (c :: s') with _ | r'
    · rcases List.suffix_cons_iff.mp hs with h' | h'
      · subst h'
        rw [hm] at h
        simp at h
      · exact ih h'
    · simp

theorem searchSingle_isSome_of_suffix {u s : List Char}
    (hs : u <:+ s) (h : (matchSingleAt u).isSome) :
    (searchSingle s).isSome := by
  induction s with
  | nil =>
    have : u = [] := List.eq_nil_of_suffix_nil hs
    subst this
    simp [matchSingleAt] at h
  | cons c s' ih =>
    unfold searchSingle
    rcases hm : matchSingleAt (c :: s') with _ | r'
    · rcases List.suffix_cons_iff.mp hs with h' | h'
      · subst h'
        rw [hm] at h
        simp at h
      · exact ih h'
    · simp

theorem searchRange_isSome_iff (s : List Char) :
    (searchRange s).isSome ↔ containsRangePat s := by
  constructor
  · intro h
    obtain ⟨r, hr⟩ := Option.isSome_iff_exists.mp h
    obtain ⟨u, hu, hmu⟩ := searchRange_some_suffix hr
    obtain ⟨p, hp⟩ := hu
    obtain ⟨d₁, dash, d₂, w, t, hs, c1, c2, c3, c4, c5, c6, c7⟩ :=
      matchRangeAt_some_decomp (s := u) (by simp [hmu])
    exact ⟨p, d₁, dash, d₂, w, t, by rw [← hp, hs], c1, c2, c3, c4, c5, c6, c7⟩
  · rintro ⟨p, d₁, dash, d₂, w, t, hs, c1, c2, c3, c4, c5, c6, c7⟩
    subst hs
    exact searchRange_isSome_of_suffix ⟨p, rfl⟩
      (matchRangeAt_isSome_of_parts d₁ d₂ w t dash c1 c2 c3 c4 c5 c6 c7)

theorem searchSingle_isSome_iff (s : List Char) :
    (searchSingle s).isSome ↔ containsSinglePat s := by
  constructor
  · intro h
    obtain ⟨r, hr⟩ := Option.isSome_iff_exists.mp h
    obtain ⟨u, hu, hmu⟩ := searchSingle_some_suffix hr
    obtain ⟨p, hp⟩ := hu
    obtain ⟨d, w, t, hs, c1, c2, c3, c4⟩ :=
      matchSingleAt_some_decomp (s := u) (by simp [hmu])
    exact ⟨p, d, w, t, by rw [← hp, hs], c1, c2, c3, c4⟩
  · rintro ⟨p, d, w, t, hs, c1, c2, c3, c4⟩
    subst hs
    exact searchSingle_isSome_of_suffix ⟨p, rfl⟩
      (matchSingleAt_isSome_of_parts d w t c1 c2 c3 c4)

theorem label_not_heading (line : List Char)
    (h : label.isPrefixOf (strip line) = true) : isHeading line = false := by
  have h1 := List.isPrefixOf_iff_prefix.mp h
  by_cases h2 : hMark.isPrefixOf (strip line) = true
  · have h2' := List.isPrefixOf_iff_prefix.mp h2
    have h3 := List.prefix_of_prefix_length_le h2' h1 (by decide)
    exact absurd h3 (by decide)
  · unfold isHeading
    simp at h2
    simp [h2]

/-- Claim C4: when the cursor holds a name and a line's trimmed form starts
with `**Stima ore**:`, the range regex succeeds exactly when the line
contains two integers joined by a hyphen/en-dash then whitespace then `ore`
(the single regex, consulted only on range failure, succeeds exactly when
the line contains one integer then whitespace then `ore`); a range match
emits `Phase(name, first, second)` and clears the cursor, a single match
emits `Phase(name, v, v)` and clears the cursor, and a double failure emits
nothing and keeps the cursor. -/
theorem estimate_line_step (line n : List Char)
    (hlab : label.isPrefixOf (strip line) = true) :
    ((searchRange line).isSome ↔ containsRangePat line)
    ∧ (searchRange line = none → ((searchSingle line).isSome ↔ containsSinglePat line))
    ∧ (∀ a b, searchRange line = some (a, b) →
        lineStep (some n) line = (none, [⟨n, a, b⟩]))
    ∧ (searchRange line = none → ∀ v, searchSingle line = some v →
        lineStep (some n) line = (none, [⟨n, v, v⟩]))
    ∧ (searchRange line = none → searchSingle line = none →
        lineStep (some n) line = (some n, [])) := by
  have hh := label_not_heading line hlab
  refine ⟨searchRange_isSome_iff line, fun _ => searchSingle_isSome_iff line, ?_, ?_, ?_⟩
  · intro a b hr
    simp [lineStep, hh, hlab, hr]
  · intro hr v hv
    simp [lineStep, hh, hlab, hr, hv]
  · intro hr hv
    simp [lineStep, hh, hlab, hr, hv]

/-- Witness for C4 at the line `**Stima ore**: 10-15 ore`. -/
theorem estimate_line_step_witness :
    label.isPrefixOf (strip (("**Stima ore**: 10-15 ore").toList)) = true
    ∧ (((searchRange (("**Stima ore**: 10-15 ore").toList)).isSome
          ↔ containsRangePat (("**Stima ore**: 10-15 ore").toList))
      ∧ (searchRange (("**Stima ore**: 10-15 ore").toList) = none →
          ((searchSingle (("**Stima ore**: 10-15 ore").toList)).isSome
            ↔ containsSinglePat (("**Stima ore**: 10-15 ore").toList)))
      ∧ (∀ a b, searchRange (("**Stima ore**: 10-15 ore").toList) = some (a, b) →
          lineStep (some (("Design").toList)) (("**Stima ore**: 10-15 ore").toList)
            = (none, [⟨("Design").toList, a, b⟩]))
      ∧ (searchRange (("**Stima ore**: 10-15 ore").toList) = none →
          ∀ v, searchSingle (("**Stima ore**: 10-15 ore").toList) = some v →
          lineStep (some (("Design").toList)) (("**Stima ore**: 10-15 ore").toList)
            = (none, [⟨("Design").toList, v, v⟩]))
      ∧ (searchRange (("**Stima ore**: 10-15 ore").toList) = none →
          searchSingle (("**Stima ore**: 10-15 ore").toList) = none →
          lineStep (some (("Design").toList)) (("**Stima ore**: 10-15 ore").toList)
            = (some (("Design").toList), []))) :=
  ⟨by decide, estimate_line_step (("**Stima ore**: 10-15 ore").toList)
    (("Design").toList) (by decide)⟩

/-! ## C2: idempotence of the document updater -/

theorem strFind_none_iff (pat s : List Char) :
    strFind pat s = none ↔ ∀ j, ¬ pat <+: s.drop j := by
  induction s with
  | nil =>
    constructor
    · intro h j hc
      rw [List.drop_nil] at hc
      have hb : pat.isPrefixOf ([] : List Char) = true := List.isPrefixOf_iff_prefix.mpr hc
      simp [strFind, hb] at h
    · intro h
      have hn : ¬ pat <+: ([] : List Char) := by simpa using h 0
      simp only [strFind]
      rw [if_neg (fun hb => hn (List.isPrefixOf_iff_prefix.mp hb))]
  | cons c s ih =>
    constructor
    · intro h j hc
      by_cases hp : pat.isPrefixOf (c :: s) = true
      · simp only [strFind, if_pos hp] at h
        exact absurd h (by simp)
      · simp only [strFind, if_neg hp] at h
        have hin : strFind pat s = none := by
          rcases hfs : strFind pat s with _ | k
          · rfl
          · rw [hfs] at h; simp at h
        cases j with
        | zero =>
          rw [List.drop_zero] at hc
          exact hp (List.isPrefixOf_iff_prefix.mpr hc)
        | succ j' =>
          rw [List.drop_succ_cons] at hc
          exact (ih.mp hin) j' hc
    · intro h
      have hp : ¬ pat.isPrefixOf (c :: s) = true := fun hb =>
        (h 0) (by simpa using List.isPrefixOf_iff_prefix.mp hb)
      simp only [strFind, if_neg hp]
      have hin : strFind pat s = none :=
        ih.mpr (fun j hc => h (j + 1) (by simpa using hc))
      rw [hin]
      rfl

theorem strFind_some_iff (pat s : List Char) (i : ℕ) :
    strFind pat s = some i ↔ (pat <+: s.drop i ∧ ∀ j, j < i → ¬ pat <+: s.drop j) := by
  induction s generalizing i with
  | nil =>
    constructor
    · intro h
      by_cases hp : pat.isPrefixOf ([] : List Char) = true
      · simp only [strFind, if_pos hp] at h
        have hi : i = 0 := by simpa using h.symm
        subst hi
        exact ⟨by simpa using List.isPrefixOf_iff_prefix.mp hp, fun j hj => by omega⟩
      · simp only [strFind, if_neg hp] at h
        exact absurd h (by simp)
    · rintro ⟨hocc, hmin⟩
      rw [List.drop_nil] at hocc
      have hp : pat.isPrefixOf ([] : List Char) = true := List.isPrefixOf_iff_prefix.mpr hocc
      have hi : i = 0 := by
        by_contra hne
        exact hmin 0 (by omega) (by simpa using hocc)
      subst hi
      simp [strFind, hp]
  | cons c s ih =>
    constructor
    · intro h
      by_cases hp : pat.isPrefixOf (c :: s) = true
      · simp only [strFind, if_pos hp] at h
        have hi : i = 0 := by simpa using h.symm
        subst hi
        exact ⟨by simpa using List.isPrefixOf_iff_prefix.mp hp, fun j hj => by omega⟩
      · simp only [strFind, if_neg hp] at h
        rcases hfs : strFind pat s with _ | k
        · rw [hfs] at h; simp at h
        · rw [hfs] at h
          simp at h
          subst h
          obtain ⟨hocc, hmin⟩ := (ih k).mp hfs
          refine ⟨by simpa using hocc, ?_⟩
          intro j hj
          cases j with
          | zero =>
            intro hc
            exact hp (List.isPrefixOf_iff_prefix.mpr (by simpa using hc))
          | succ j' =>
            intro hc
            exact hmin j' (by omega) (by simpa using hc)
    · rintro ⟨hocc, hmin⟩
      by_cases hp : pat.isPrefixOf (c :: s) = true
      · have hi : i = 0 := by
          by_contra hne
          exact hmin 0 (by omega) (by simpa using List.isPrefixOf_iff_prefix.mp hp)
        subst hi
        simp [strFind, hp]
      · cases i with
        | zero =>
          rw [List.drop_zero] at hocc
          exact absurd (List.isPrefixOf_iff_prefix.mpr hocc) hp
        | succ n =>
          have h' : strFind pat s = some n := (ih n).mpr
            ⟨by simpa using hocc, fun j hj hc => hmin (j + 1) (by omega) (by simpa using hc)⟩
          simp only [strFind, if_neg hp, h']
          rfl

theorem strFind_some_le {pat content : List Char} {i : ℕ}
    (hpat : pat ≠ []) (h : strFind pat content = some i) : i ≤ content.length := by
  obtain ⟨hocc, -⟩ := (strFind_some_iff pat content i).mp h
  by_contra hgt
  rw [List.drop_eq_nil_of_le (by omega)] at hocc
  exact hpat (List.prefix_nil.mp hocc)

theorem take_pre (n : ℕ) (l : List Char) : l.take n <+: l :=
  List.take_prefix n l

theorem prefix_drop_mono {l₁ l₂ : List Char} (h : l₁ <+: l₂) (j : ℕ) :
    l₁.drop j <+: l₂.drop j := by
  obtain ⟨t, rfl⟩ := h
  rw [List.drop_append_eq_append_drop]
  exact ⟨_, rfl⟩

theorem prefix_take_mono {l₁ l₂ : List Char} (h : l₁ <+: l₂) (n : ℕ) :
    l₁.take n <+: l₂.take n := by
  obtain ⟨t, rfl⟩ := h
  rw [List.take_append_eq_append_take]
  exact ⟨_, rfl⟩

theorem prefix_take_eq {p s : List Char} (h : p <+: s) {n : ℕ} (hn : n ≤ p.length) :
    s.take n = p.take n := by
  obtain ⟨t, rfl⟩ := h
  rw [List.take_append_eq_append_take, show n - p.length = 0 by omega]
  simp

theorem prefix_drop_append_cases {base ext pat : List Char} {j : ℕ}
    (h : pat <+: (base ++ ext).drop j) :
    pat <+: base.drop j
    ∨ (j ≤ base.length ∧ base.length - j < pat.length
        ∧ base.drop j = pat.take (base.length - j)
        ∧ pat.drop (base.length - j) <+: ext)
    ∨ (base.length < j ∧ pat <+: ext.drop (j - base.length)) := by
  by_cases hj : j ≤ base.length
  · rw [List.drop_append_eq_append_drop, show j - base.length = 0 by omega,
      List.drop_zero] at h
    have hdlen : (base.drop j).length = base.length - j := by simp
    by_cases hlen : pat.length ≤ base.length - j
    · left
      have heq := List.prefix_iff_eq_take.mp h
      rw [List.take_append_eq_append_take, show pat.length - (base.drop j).length = 0 by omega,
        List.take_zero, List.append_nil] at heq
      exact List.prefix_iff_eq_take.mpr heq
    · right; left
      have heq := List.prefix_iff_eq_take.mp h
      rw [List.take_append_eq_append_take,
        List.take_of_length_le (by omega : (base.drop j).length ≤ pat.length)] at heq
      refine ⟨hj, by omega, ?_, ?_⟩
      · rw [heq, List.take_append_eq_append_take,
          List.take_of_length_le (by omega : (base.drop j).length ≤ base.length - j),
          show base.length - j - (base.drop j).length = 0 by omega, List.take_zero,
          List.append_nil]
      · rw [heq, List.drop_append_eq_append_drop,
          List.drop_eq_nil_of_le (by omega : (base.drop j).length ≤ base.length - j),
          show base.length - j - (base.drop j).length = 0 by omega, List.drop_zero,
          List.nil_append]
        exact take_pre _ _
  · right; right
    refine ⟨by omega, ?_⟩
    rw [List.drop_append_eq_append_drop,
      List.drop_eq_nil_of_le (show base.length ≤ j by omega)] at h
    simpa using h


theorem strFind_concat_pre (pat content summary : List Char) (i : ℕ)
    (hpat : pat ≠ []) (hp : pat <+: summary) (hf : strFind pat content = some i) :
    strFind pat (content.take i ++ summary) = some i := by
  obtain ⟨hocc, hmin⟩ := (strFind_some_iff pat content i).mp hf
  have hile : i ≤ content.length := strFind_some_le hpat hf
  have hlen_take : (content.take i).length = i := by simp [hile]
  apply (strFind_some_iff _ _ _).mpr
  refine ⟨?_, ?_⟩
  · rw [List.drop_append_eq_append_drop, hlen_take,
      List.drop_eq_nil_of_le (le_of_eq hlen_take), show i - i = 0 by omega, List.drop_zero,
      List.nil_append]
    exact hp
  · intro j hj hcon
    rcases prefix_drop_append_cases hcon with h1 | ⟨hjle, hm, heq, hrest⟩ | ⟨hgt, hrest⟩
    · refine hmin j hj (h1.trans ?_)
      rw [List.drop_take]
      exact take_pre _ _
    · rw [hlen_take] at hm heq hrest
      have hshort : pat.drop (i - j) <+: pat :=
        List.prefix_of_prefix_length_le hrest hp (by simp)
      refine hmin j hj ?_
      have hsplit : content.drop j = (content.take i).drop j ++ content.drop i := by
        conv_lhs => rw [← List.take_append_drop i content]
        rw [List.drop_append_eq_append_drop, hlen_take, show j - i = 0 by omega,
          List.drop_zero]
      rw [hsplit, heq]
      have hp2 : pat.drop (i - j) <+: content.drop i := hshort.trans hocc
      obtain ⟨t2, ht2⟩ := hp2
      refine ⟨t2, ?_⟩
      rw [← ht2, ← List.append_assoc, List.take_append_drop]
    · rw [hlen_take] at hgt
      omega

theorem strFind_concat_none_before (pat content summary : List Char) (i : ℕ)
    (hpat : pat ≠ []) (hp : pat <+: summary) (hile : i ≤ content.length)
    (hnone : ∀ j, j < i → ¬ pat <+: content.drop j)
    (hno : ∀ k, k < pat.length → 0 < k → ¬ pat.drop k <+: pat) :
    strFind pat (content.take i ++ summary) = some i := by
  have hlen_take : (content.take i).length = i := by simp [hile]
  apply (strFind_some_iff _ _ _).mpr
  refine ⟨?_, ?_⟩
  · rw [List.drop_append_eq_append_drop, hlen_take,
      List.drop_eq_nil_of_le (le_of_eq hlen_take), show i - i = 0 by omega, List.drop_zero,
      List.nil_append]
    exact hp
  · intro j hj hcon
    rcases prefix_drop_append_cases hcon with h1 | ⟨hjle, hm, heq, hrest⟩ | ⟨hgt, hrest⟩
    · refine hnone j hj (h1.trans ?_)
      rw [List.drop_take]
      exact take_pre _ _
    · rw [hlen_take] at hm hrest
      have hshort : pat.drop (i - j) <+: pat :=
        List.prefix_of_prefix_length_le hrest hp (by simp)
      exact hno (i - j) (by omega) (by omega) hshort
    · rw [hlen_take] at hgt
      omega

theorem mR_ne_nil : mR ≠ [] := by decide

theorem mP_ne_nil : mP ≠ [] := by decide

theorem mR_no_overlap : ∀ k, k < mR.length → 0 < k → ¬ mR.drop k <+: mR := by decide

theorem mP_no_overlap : ∀ k, k < mP.length → 0 < k → ¬ mP.drop k <+: mP := by decide

theorem mR_cross3 :
    ∀ k, k < mR.length → 0 < k → ¬ (mR.drop k).take 3 <+: ('-' :: '-' :: '-' :: []) := by
  decide

theorem mR_pad2 :
    ∀ k, k < mR.length → ¬ mR.drop k <+: ('\n' :: '\n' :: ([] : List Char)) := by
  decide

theorem mP_pad2 :
    ∀ k, k < mP.length → ¬ mP.drop k <+: ('\n' :: '\n' :: ([] : List Char)) := by
  decide

theorem mR_len : 2 < mR.length := by decide

theorem mP_len : 2 < mP.length := by decide

theorem rstrip_pre (s : List Char) : rstrip s <+: s := by
  unfold rstrip
  have h : (s.reverse.dropWhile isPySpace) <:+ s.reverse :=
    List.dropWhile_suffix isPySpace
  have h2 := List.reverse_prefix.mpr h
  simpa using h2

theorem pad_no_occ {content : List Char} (pat : List Char)
    (hlen : 2 < pat.length)
    (hpad : ∀ k, k < pat.length → ¬ pat.drop k <+: ('\n' :: '\n' :: ([] : List Char)))
    (hcont : ∀ j, ¬ pat <+: content.drop j) :
    ∀ j, ¬ pat <+: (rstrip content ++ '\n' :: '\n' :: ([] : List Char)).drop j := by
  intro j hc
  rcases prefix_drop_append_cases hc with h1 | ⟨hj, hm, heq, hrest⟩ | ⟨hgt, hrest⟩
  · exact hcont j (h1.trans (prefix_drop_mono (rstrip_pre content) j))
  · exact hpad _ hm hrest
  · have hle := hrest.length_le
    simp at hle
    omega

theorem no_occ_take_concat {content summary : List Char} {i : ℕ} (pat : List Char)
    (hpat : pat ≠ [])
    (hsum3 : summary.take 3 = ('-' :: '-' :: '-' :: []))
    (hnosum : ∀ j, ¬ pat <+: summary.drop j)
    (hcross : ∀ k, k < pat.length → 0 < k →
      ¬ (pat.drop k).take 3 <+: ('-' :: '-' :: '-' :: []))
    (hcont : ∀ j, j < i → ¬ pat <+: content.drop j)
    (hile : i ≤ content.length) :
    strFind pat (content.take i ++ summary) = none := by
  have hlen_take : (content.take i).length = i := by simp [hile]
  rw [strFind_none_iff]
  intro j hc
  rcases prefix_drop_append_cases hc with h1 | ⟨hj, hm, heq, hrest⟩ | ⟨hgt, hrest⟩
  · by_cases hji : j < i
    · refine hcont j hji (h1.trans ?_)
      rw [List.drop_take]
      exact take_pre _ _
    · rw [List.drop_eq_nil_of_le (by rw [hlen_take]; omega)] at h1
      exact hpat (List.prefix_nil.mp h1)
  · rw [hlen_take] at hm hrest
    by_cases hm0 : i - j = 0
    · rw [hm0, List.drop_zero] at hrest
      exact hnosum 0 (by simpa using hrest)
    · have h3 := prefix_take_mono hrest 3
      rw [hsum3] at h3
      exact hcross (i - j) (by omega) (by omega) h3
  · rw [hlen_take] at hgt hrest
    exact hnosum (j - i) hrest

theorem take3_mR {summary : List Char} (h : mR <+: summary) :
    summary.take 3 = ('-' :: '-' :: '-' :: []) := by
  rw [prefix_take_eq h (by decide)]
  decide

theorem take3_mP {summary : List Char} (h : mP <+: summary) :
    summary.take 3 = ('-' :: '-' :: '-' :: []) := by
  rw [prefix_take_eq h (by decide)]
  decide

theorem updateText_mR {content summary : List Char} {i : ℕ}
    (h : strFind mR content = some i) :
    updateText content summary = content.take i ++ summary := by
  unfold updateText
  rw [h]

theorem updateText_mP {content summary : List Char} {i : ℕ}
    (h1 : strFind mR content = none) (h2 : strFind mP content = some i) :
    updateText content summary = content.take i ++ summary := by
  unfold updateText
  rw [h1, h2]

theorem updateText_app {content summary : List Char}
    (h1 : strFind mR content = none) (h2 : strFind mP content = none) :
    updateText content summary = rstrip content ++ '\n' :: '\n' :: summary := by
  unfold updateText
  rw [h1, h2]

theorem take_concat_take {content summary : List Char} {i : ℕ}
    (hile : i ≤ content.length) :
    (content.take i ++ summary).take i = content.take i :=
  List.take_left' (by simp [hile])


theorem updateText_idem (content summary : List Char)
    (h : mR <+: summary
       ∨ (mP <+: summary ∧ (∀ j, ¬ mR <+: summary.drop j)
          ∧ (∀ i j, strFind mR content = some i → j < i → ¬ mP <+: content.drop j))) :
    updateText (updateText content summary) summary = updateText content summary := by
  rcases h with hmr | ⟨hmp, hnomr, hnomp⟩
  · rcases hfR : strFind mR content with _ | i
    · rcases hfP : strFind mP content with _ | i
      · rw [updateText_app hfR hfP]
        have hassoc : rstrip content ++ '\n' :: '\n' :: summary
            = (rstrip content ++ '\n' :: '\n' :: ([] : List Char)) ++ summary := by
          simp
        rw [hassoc]
        set B := rstrip content ++ '\n' :: '\n' :: ([] : List Char) with hB
        have hnoB : ∀ j, ¬ mR <+: B.drop j :=
          pad_no_occ mR mR_len mR_pad2 ((strFind_none_iff mR content).mp hfR)
        have hfind : strFind mR (B.take B.length ++ summary) = some B.length :=
          strFind_concat_none_before mR B summary B.length mR_ne_nil hmr le_rfl
            (fun j _ => hnoB j) mR_no_overlap
        rw [List.take_length] at hfind
        rw [updateText_mR hfind, List.take_left]
      · rw [updateText_mP hfR hfP]
        have hile : i ≤ content.length := strFind_some_le mP_ne_nil hfP
        have hfind := strFind_concat_none_before mR content summary i mR_ne_nil hmr hile
          (fun j _ => (strFind_none_iff mR content).mp hfR j) mR_no_overlap
        rw [updateText_mR hfind, take_concat_take hile]
    · rw [updateText_mR hfR]
      have hile : i ≤ content.length := strFind_some_le mR_ne_nil hfR
      have hfind := strFind_concat_pre mR content summary i mR_ne_nil hmr hfR
      rw [updateText_mR hfind, take_concat_take hile]
  · have hsum3 := take3_mP hmp
    rcases hfR : strFind mR content with _ | i
    · rcases hfP : strFind mP content with _ | i
      · rw [updateText_app hfR hfP]
        have hassoc : rstrip content ++ '\n' :: '\n' :: summary
            = (rstrip content ++ '\n' :: '\n' :: ([] : List Char)) ++ summary := by
          simp
        rw [hassoc]
        set B := rstrip content ++ '\n' :: '\n' :: ([] : List Char) with hB
        have hnoBR : ∀ j, ¬ mR <+: B.drop j :=
          pad_no_occ mR mR_len mR_pad2 ((strFind_none_iff mR content).mp hfR)
        have hnoBP : ∀ j, ¬ mP <+: B.drop j :=
          pad_no_occ mP mP_len mP_pad2 ((strFind_none_iff mP content).mp hfP)
        have hnone : strFind mR (B.take B.length ++ summary) = none :=
          no_occ_take_concat mR mR_ne_nil hsum3 hnomr mR_cross3
            (fun j _ => hnoBR j) le_rfl
        have hfind : strFind mP (B.take B.length ++ summary) = some B.length :=
          strFind_concat_none_before mP B summary B.length mP_ne_nil hmp le_rfl
            (fun j _ => hnoBP j) mP_no_overlap
        rw [List.take_length] at hnone hfind
        rw [updateText_mP hnone hfind, List.take_left]
      · rw [updateText_mP hfR hfP]
        have hile : i ≤ content.length := strFind_some_le mP_ne_nil hfP
        have hminP : ∀ j, j < i → ¬ mP <+: content.drop j :=
          ((strFind_some_iff mP content i).mp hfP).2
        have hnone : strFind mR (content.take i ++ summary) = none :=
          no_occ_take_concat mR mR_ne_nil hsum3 hnomr mR_cross3
            (fun j _ => (strFind_none_iff mR content).mp hfR j) hile
        have hfind := strFind_concat_none_before mP content summary i mP_ne_nil hmp hile
          hminP mP_no_overlap
        rw [updateText_mP hnone hfind, take_concat_take hile]
    · rw [updateText_mR hfR]
      have hile : i ≤ content.length := strFind_some_le mR_ne_nil hfR
      have hminR : ∀ j, j < i → ¬ mR <+: content.drop j :=
        ((strFind_some_iff mR content i).mp hfR).2
      have hnone : strFind mR (content.take i ++ summary) = none :=
        no_occ_take_concat mR mR_ne_nil hsum3 hnomr mR_cross3 hminR hile
      have hnoP : ∀ j, j < i → ¬ mP <+: content.drop j :=
        fun j hj => hnomp i j hfR hj
      have hfind := strFind_concat_none_before mP content summary i mP_ne_nil hmp hile
        hnoP mP_no_overlap
      rw [updateText_mP hnone hfind, take_concat_take hile]

/-- Claim C2 as amended: the updater's text transformation (no-op flag
unset) is idempotent for every document whenever the rendered summary is in
range mode (it begins with the range-mode marker); for a final-mode summary
(it begins with the final-mode marker and contains no range-mode marker)
idempotence holds provided no final-mode marker occurrence precedes the
first range-mode marker occurrence in the document — in particular whenever
the range-mode marker is absent. -/
theorem update_idempotent_amended (content summary : List Char)
    (h : mR <+: summary
       ∨ (mP <+: summary ∧ (∀ j, ¬ mR <+: summary.drop j)
          ∧ (∀ i j, strFind mR content = some i → j < i → ¬ mP <+: content.drop j))) :
    update_markdown_file (update_markdown_file content summary false) summary false
      = update_markdown_file content summary false := by
  simp only [update_markdown_file, Bool.false_eq_true, if_false]
  exact updateText_idem content summary h

/-- Witness for C2 (amended) on a document with no marker and a summary
beginning with the range-mode marker. -/
theorem update_idempotent_amended_witness :
    update_markdown_file (update_markdown_file (("X").toList) mR false) mR false
      = update_markdown_file (("X").toList) mR false :=
  update_idempotent_amended (("X").toList) mR (Or.inl (List.prefix_refl mR))

/-- The final-mode summary rendered for a single 10-15 hour phase at the
default rates (34, 36, 12, 16). -/
def sFinal : List Char :=
  generateSummaryText [⟨("Design").toList, 10, 15⟩] 34 36 12 16 true

/-- A document containing a final-mode marker occurrence before a
range-mode marker occurrence. -/
def cxDoc : List Char := ("A").toList ++ mP ++ ("B").toList ++ mR ++ ("C").toList

set_option maxRecDepth 100000 in
unseal Rat.mul Rat.add Rat.sub Rat.inv in
/-- Counterexample to claim C2: on `cxDoc`, applying the updater twice with
the same rendered final-mode summary does not equal applying it once — the
first application replaces from the range-mode marker, the second then finds
the final-mode marker earlier and cuts more text. -/
theorem update_idempotent_cx :
    update_markdown_file (update_markdown_file cxDoc sFinal false) sFinal false
      ≠ update_markdown_file cxDoc sFinal false := by
  decide

end Stima
